import Mathlib

/-!
Verification of the algorithmic core of the edge-detection demo
(`src/image_processor.py`): small-component filtering
(`remove_small_edges`), greedy nearest-neighbor path building
(`create_line_drawing` / `_create_continuous_path`), rectangular region
clearing (`delete_edges_in_region` / `erase_line_in_region`) and the
display-image selection chain (`get_current_display_image`), embedded
shallowly over `Nat`-valued pixel grids.
-/

/-- A binary mask: an `H × W` grid of byte values (`0` = off background,
nonzero = on/edge pixel), stored row-major as a total function that is `0`
outside the grid bounds.  Mirrors the 2-D `numpy` arrays held by
`ImageProcessor`. -/
structure Mask where
  H : ℕ
  W : ℕ
  pix : ℕ → ℕ → ℕ
  bounded : ∀ r c, H ≤ r ∨ W ≤ c → pix r c = 0

/-- Build a mask from dimensions and an arbitrary pixel function,
truncating outside the grid. -/
def mkMask (H W : ℕ) (f : ℕ → ℕ → ℕ) : Mask :=
  ⟨H, W, fun r c => if r < H ∧ c < W then f r c else 0,
    fun _ _ h => if_neg (by omega)⟩

/-- The pixel `p = (row, col)` is an "on" (edge) pixel of `m`: inside the
grid with a nonzero value (numpy `edges > 0` on `uint8` data). -/
def On (m : Mask) (p : ℕ × ℕ) : Prop :=
  p.1 < m.H ∧ p.2 < m.W ∧ m.pix p.1 p.2 ≠ 0

instance (m : Mask) (p : ℕ × ℕ) : Decidable (On m p) := by
  unfold On; exact inferInstance

/-- All coordinates of the `H × W` grid, as a finite set. -/
def grid (m : Mask) : Finset (ℕ × ℕ) := Finset.range m.H ×ˢ Finset.range m.W

/-- The finite set of "on" pixels of a mask. -/
def onSet (m : Mask) : Finset (ℕ × ℕ) := (grid m).filter (fun p => On m p)

/-- Squared Euclidean distance between two pixel coordinates
(`np.sum((current_point - points[idx]) ** 2)`). -/
def sqDist (p q : ℕ × ℕ) : ℕ := Nat.dist p.1 q.1 ^ 2 + Nat.dist p.2 q.2 ^ 2

/-- 8-connectivity adjacency: distinct cells differing by at most `1` in
each coordinate (`connectivity=8` in `cv2.connectedComponentsWithStats`,
diagonals included). -/
def adj8 (p q : ℕ × ℕ) : Prop :=
  p ≠ q ∧ Nat.dist p.1 q.1 ≤ 1 ∧ Nat.dist p.2 q.2 ≤ 1

instance (p q : ℕ × ℕ) : Decidable (adj8 p q) := by
  unfold adj8; exact inferInstance

/-- All grid coordinates in row-major order (ascending row, then ascending
column) — the enumeration order of `np.where` on a C-ordered array. -/
def rowMajor (H W : ℕ) : List (ℕ × ℕ) :=
  (List.range H).flatMap fun r => (List.range W).map fun c => (r, c)

/-- The "on" pixels of the mask in row-major scan order: the coordinate
list `np.column_stack(np.where(self.edges > 0))`. -/
def scanOrder (m : Mask) : List (ℕ × ℕ) :=
  (rowMajor m.H m.W).filter fun p => decide (m.pix p.1 p.2 ≠ 0)

/-- One nearest-unvisited scan of `_create_continuous_path`: fold over the
unvisited points left to right carrying the best `(point, squared
distance)` so far (`none` plays `min_dist = inf`), updating only on strict
improvement (`dist < min_dist`).  The Python loop `for idx in unvisited`
iterates a set of small nonnegative int indices, which CPython yields in
ascending index order (`hash(i) = i`, table slots scanned in order, and
the table only ever grew from inserting `range(len(points))`), so the
unvisited points are scanned in their original row-major scan order;
strict improvement then keeps the earliest point on distance ties. -/
def findNearestGo (cur : ℕ × ℕ) :
    List (ℕ × ℕ) → Option ((ℕ × ℕ) × ℕ) → Option ((ℕ × ℕ) × ℕ)
  | [], acc => acc
  | q :: rest, acc =>
    match acc with
    | none => findNearestGo cur rest (some (q, sqDist cur q))
    | some (p, dp) =>
      if sqDist cur q < dp then findNearestGo cur rest (some (q, sqDist cur q))
      else findNearestGo cur rest (some (p, dp))

/-- The nearest unvisited point to `cur` (earliest on distance ties). -/
def findNearest (cur : ℕ × ℕ) (l : List (ℕ × ℕ)) : Option (ℕ × ℕ) :=
  (findNearestGo cur l none).map Prod.fst

/-- The greedy loop of `_create_continuous_path`: from the path's last
point, repeatedly append the nearest unvisited point and remove it from
the unvisited pool.  `fuel` bounds the iterations exactly as
`len(path) < len(points)` does, and the loop also stops early should the
nearest-point scan come back empty. -/
def nnGo (cur : ℕ × ℕ) (unvisited : List (ℕ × ℕ)) : ℕ → List (ℕ × ℕ)
  | 0 => []
  | fuel + 1 =>
    match findNearest cur unvisited with
    | none => []
    | some q => q :: nnGo q (unvisited.erase q) fuel

/-- The path builder `buildPath` (the spec's name for
`_create_continuous_path` applied to
the mask's on-pixel list, cf. `create_line_drawing`): empty for an empty
mask, otherwise seeded with the first on-pixel in scan order
(`current_idx = 0`) and extended by greedy nearest-neighbor steps. -/
def buildPath (m : Mask) : List (ℕ × ℕ) :=
  match scanOrder m with
  | [] => []
  | p :: rest => p :: nnGo p rest rest.length

/-- Modelled from the spec: "select the nearest not-yet-visited point by
squared Euclidean distance", "Tie-break …: choose the point earliest in
the original scan order among ties" — i.e. the first point of the
unvisited list (kept in scan order) whose distance to `cur` is a global
minimum. -/
def specSelect (cur : ℕ × ℕ) (l : List (ℕ × ℕ)) : Option (ℕ × ℕ) :=
  l.find? fun q => l.all fun r => decide (sqDist cur q ≤ sqDist cur r)

/-- Modelled from the spec: the repeated greedy extension step, with the
spec's nearest-point selection. -/
def specGo (cur : ℕ × ℕ) (unvisited : List (ℕ × ℕ)) : ℕ → List (ℕ × ℕ)
  | 0 => []
  | fuel + 1 =>
    match specSelect cur unvisited with
    | none => []
    | some q => q :: specGo q (unvisited.erase q) fuel

/-- Modelled from the spec: enumerate the on-pixels in row-major scan
order, seed the path with the first, then repeatedly append the nearest
unvisited point, breaking distance ties toward the earliest point in scan
order. -/
def buildPathSpec (m : Mask) : List (ℕ × ℕ) :=
  match scanOrder m with
  | [] => []
  | p :: rest => p :: specGo p rest rest.length

/-- A single connectivity step inside the mask: both endpoints are on and
8-adjacent. -/
def connStep (m : Mask) (p q : ℕ × ℕ) : Prop := On m p ∧ On m q ∧ adj8 p q

/-- The pixel `q` lies in the 8-connected component of the on-pixel `p`. -/
def Conn (m : Mask) (p q : ℕ × ℕ) : Prop :=
  On m p ∧ Relation.ReflTransGen (connStep m) p q

/-- Modelled from the spec: one round of component growth for the
8-connected component labelling performed by
`cv2.connectedComponentsWithStats` — add every on-pixel adjacent to the
region grown so far. -/
def expand (m : Mask) (s : Finset (ℕ × ℕ)) : Finset (ℕ × ℕ) :=
  s ∪ (onSet m).filter fun q => ∃ p ∈ s, adj8 p q

/-- The 8-connected component of `p` (empty when `p` is off): grow from
`{p}` for `H * W` rounds, enough to reach the fixpoint. -/
def compOf (m : Mask) (p : ℕ × ℕ) : Finset (ℕ × ℕ) :=
  (expand m)^[m.H * m.W] (if On m p then {p} else ∅)

/-- The pixel count (`stats[i, cv2.CC_STAT_AREA]`) of `p`'s component. -/
def compSize (m : Mask) (p : ℕ × ℕ) : ℕ := (compOf m p).card

/-- The mask transformation of `remove_small_edges` (spec name
`filterSmallComponents`): start from `np.zeros_like` and set to `255`
exactly the pixels of foreground components whose area meets `min_size`
(`area >= min_size`; label 0, the background, is skipped). -/
def filterSmallComponents (m : Mask) (minSize : ℕ) : Mask :=
  ⟨m.H, m.W,
    fun r c => if On m (r, c) ∧ minSize ≤ compSize m (r, c) then 255 else 0,
    fun r c h => by
      dsimp only
      rw [if_neg]
      intro hc
      have h1 := hc.1.1
      have h2 := hc.1.2.1
      simp only at h1 h2
      omega⟩

/-- The mask transformation of `delete_edges_in_region` and
`erase_line_in_region` (spec name `clearRegion`): normalize the two corner
points with `min`/`max` and zero the half-open rectangle
`mask[y1:y2, x1:x2] = 0` (`x` = column, `y` = row). -/
def clearRegion (m : Mask) (x1 y1 x2 y2 : ℕ) : Mask :=
  ⟨m.H, m.W,
    fun r c =>
      if min y1 y2 ≤ r ∧ r < max y1 y2 ∧ min x1 x2 ≤ c ∧ c < max x1 x2 then 0
      else m.pix r c,
    fun r c h => by
      dsimp only
      split
      · rfl
      · exact m.bounded r c h⟩

/-- Modelled from the spec: the rasterized straight segment between two
pixel coordinates (the `cv2.line` draw primitive, thickness 1): the points
of the bounding box lying within half a grid step of the ideal line. -/
def onSegment (p q z : ℕ × ℕ) : Prop :=
  min p.1 q.1 ≤ z.1 ∧ z.1 ≤ max p.1 q.1 ∧
  min p.2 q.2 ≤ z.2 ∧ z.2 ≤ max p.2 q.2 ∧
  2 * |((z.1 : ℤ) - (p.1 : ℤ)) * ((q.2 : ℤ) - (p.2 : ℤ)) -
        ((z.2 : ℤ) - (p.2 : ℤ)) * ((q.1 : ℤ) - (p.1 : ℤ))| ≤
    max (Nat.dist p.1 q.1 : ℤ) (Nat.dist p.2 q.2 : ℤ)

instance (p q z : ℕ × ℕ) : Decidable (onSegment p q z) := by
  unfold onSegment; exact inferInstance

/-- Modelled from the spec: draw one stroke-255 segment into an image
(`cv2.line(self.line_drawing, pt1, pt2, 255, 1)`), clipped to the image
bounds. -/
def drawSeg (img : Mask) (p q : ℕ × ℕ) : Mask :=
  ⟨img.H, img.W,
    fun r c =>
      if r < img.H ∧ c < img.W ∧ onSegment p q (r, c) then 255
      else img.pix r c,
    fun r c h => by
      dsimp only
      rw [if_neg]
      · exact img.bounded r c h
      · rintro ⟨h1, h2, _⟩
        omega⟩

/-- The blank image `np.zeros_like`: a zero mask of the same dimensions. -/
def zerosLike (m : Mask) : Mask := ⟨m.H, m.W, fun _ _ => 0, fun _ _ _ => rfl⟩

/-- The drawing phase of `create_line_drawing`: start from a blank image
and draw a segment between every consecutive pair of path points (when the
mask has no on-pixels the path is empty and the blank image is returned,
matching the early return). -/
def renderPath (e : Mask) : Mask :=
  ((buildPath e).zip (buildPath e).tail).foldl
    (fun img pq => drawSeg img pq.1 pq.2) (zerosLike e)

/-- The processing state of `ImageProcessor` — the fields the verified
operations consult.  `original_image` plays no role in the claims, and all
images (including the colour `current_image`) are represented as masks,
since only their presence and mask content matter here. -/
structure ImageProcessor where
  current_image : Option Mask
  edges : Option Mask
  line_drawing : Option Mask

/-- The operation `remove_small_edges`: fails when no edge mask exists
(`raise ValueError("No edges detected")`), otherwise filters the edge mask
and stores the filtered result. -/
def remove_small_edges (st : ImageProcessor) (min_size : ℕ) :
    Except String (Mask × ImageProcessor) :=
  match st.edges with
  | none => .error ("No edges detected")
  | some e =>
    .ok (filterSmallComponents e min_size,
      { st with edges := some (filterSmallComponents e min_size) })

/-- The operation `create_line_drawing`: fails when no edge mask exists,
otherwise draws
the greedy path over the edge pixels into a fresh image and stores it. -/
def create_line_drawing (st : ImageProcessor) :
    Except String (Mask × ImageProcessor) :=
  match st.edges with
  | none => .error ("No edges detected")
  | some e =>
    .ok (renderPath e, { st with line_drawing := some (renderPath e) })

/-- The operation `delete_edges_in_region`: fails when no edge mask exists,
otherwise
clears the normalized rectangle in the edge mask. -/
def delete_edges_in_region (st : ImageProcessor) (x1 y1 x2 y2 : ℕ) :
    Except String (Mask × ImageProcessor) :=
  match st.edges with
  | none => .error ("No edges detected")
  | some e =>
    .ok (clearRegion e x1 y1 x2 y2,
      { st with edges := some (clearRegion e x1 y1 x2 y2) })

/-- The operation `erase_line_in_region`: fails when no line drawing exists,
otherwise
clears the normalized rectangle in the line drawing. -/
def erase_line_in_region (st : ImageProcessor) (x1 y1 x2 y2 : ℕ) :
    Except String (Mask × ImageProcessor) :=
  match st.line_drawing with
  | none => .error ("No line drawing created")
  | some ld =>
    .ok (clearRegion ld x1 y1 x2 y2,
      { st with line_drawing := some (clearRegion ld x1 y1 x2 y2) })

/-- The selector `get_current_display_image`: the line drawing if present,
else the
edge mask if present, else the current image if present, else `none`. -/
def get_current_display_image (st : ImageProcessor) : Option Mask :=
  match st.line_drawing with
  | some ld => some ld
  | none =>
    match st.edges with
    | some e => some e
    | none =>
      match st.current_image with
      | some ci => some ci
      | none => none

/-- Row-major (scan) order on coordinates: earlier row, or same row and
earlier column. -/
def rmLt (p q : ℕ × ℕ) : Prop := p.1 < q.1 ∨ (p.1 = q.1 ∧ p.2 < q.2)

/-- Helper: structural leftmost minimal-distance selection, bridging the
source's strict-improvement fold and the spec's find-first-minimum. -/
def selAux (cur : ℕ × ℕ) : List (ℕ × ℕ) → Option (ℕ × ℕ)
  | [] => none
  | p :: l =>
    match selAux cur l with
    | none => some p
    | some q => if sqDist cur p ≤ sqDist cur q then some p else some q

/-- Concrete test mask: a 1×2 row with both pixels on (one 8-connected
component of size 2). -/
def wRow2 : Mask := mkMask 1 2 fun _ _ => 255

/-- Concrete test mask: a single on pixel of value 255. -/
def wOne255 : Mask := mkMask 1 1 fun _ _ => 255

/-- Concrete test mask: a single on pixel of value 7 (same support as
`wOne255`, different stored byte). -/
def wOne7 : Mask := mkMask 1 1 fun _ _ => 7

/-- Concrete test mask: 1×1 with no on pixels. -/
def wEmpty : Mask := mkMask 1 1 fun _ _ => 0

/-- Concrete test mask: 12×12 with a single on pixel at `(5,5)`. -/
def wDot55 : Mask := mkMask 12 12 fun r c => if r = 5 ∧ c = 5 then 255 else 0

/-- Concrete test state: nothing loaded. -/
def stNone : ImageProcessor := ⟨none, none, none⟩

/-- Concrete test state: an edge mask is present, no line drawing. -/
def stWithEdges : ImageProcessor := ⟨none, some wRow2, none⟩

/-- Concrete test state: edge mask and line drawing both present. -/
def stWithLine : ImageProcessor := ⟨none, some wRow2, some wOne255⟩

/-- Concrete test state: only a current image is present. -/
def stWithImage : ImageProcessor := ⟨some wOne255, none, none⟩

theorem Mask.eq_of_fields {m₁ m₂ : Mask} (hH : m₁.H = m₂.H)
    (hW : m₁.W = m₂.W) (hp : m₁.pix = m₂.pix) : m₁ = m₂ := by
  cases m₁; cases m₂
  cases hH; cases hW; cases hp
  rfl

theorem On_def (m : Mask) (p : ℕ × ℕ) :
    On m p ↔ p.1 < m.H ∧ p.2 < m.W ∧ m.pix p.1 p.2 ≠ 0 := Iff.rfl

theorem mem_rowMajor {H W : ℕ} {p : ℕ × ℕ} :
    p ∈ rowMajor H W ↔ p.1 < H ∧ p.2 < W := by
  unfold rowMajor
  simp only [List.mem_flatMap, List.mem_map, List.mem_range]
  constructor
  · rintro ⟨r, hr, c, hc, rfl⟩
    exact ⟨hr, hc⟩
  · rintro ⟨h1, h2⟩
    exact ⟨p.1, h1, p.2, h2, rfl⟩

theorem pairwise_flatMap {α β : Type} {R : β → β → Prop} {f : α → List β} :
    ∀ {l : List α}, (∀ a ∈ l, (f a).Pairwise R) →
      l.Pairwise (fun a b => ∀ x ∈ f a, ∀ y ∈ f b, R x y) →
      (l.flatMap f).Pairwise R := by
  intro l
  induction l with
  | nil => intro _ _; simp
  | cons a t ih =>
    intro h1 h2
    rw [List.flatMap_cons, List.pairwise_append]
    refine ⟨h1 a (List.mem_cons_self a t), ih (fun b hb => h1 b (List.mem_cons_of_mem _ hb)) (List.Pairwise.of_cons h2), ?_⟩
    intro x hx y hy
    rw [List.mem_flatMap] at hy
    obtain ⟨b, hb, hyb⟩ := hy
    exact (List.pairwise_cons.mp h2).1 b hb x hx y hyb

theorem rowMajor_pairwise (H W : ℕ) : (rowMajor H W).Pairwise rmLt := by
  apply pairwise_flatMap
  · intro r _
    rw [List.pairwise_map]
    exact (List.pairwise_lt_range W).imp fun h => Or.inr ⟨rfl, h⟩
  · apply (List.pairwise_lt_range H).imp
    intro a b hab x hx y hy
    rw [List.mem_map] at hx hy
    obtain ⟨cx, _, rfl⟩ := hx
    obtain ⟨cy, _, rfl⟩ := hy
    exact Or.inl hab

theorem mem_scanOrder {m : Mask} {p : ℕ × ℕ} : p ∈ scanOrder m ↔ On m p := by
  unfold scanOrder
  simp only [List.mem_filter, mem_rowMajor, decide_eq_true_eq]
  rw [On_def, and_assoc]

theorem mem_onSet {m : Mask} {p : ℕ × ℕ} : p ∈ onSet m ↔ On m p := by
  unfold onSet grid
  simp only [Finset.mem_filter, Finset.mem_product, Finset.mem_range]
  rw [On_def]
  constructor
  · exact fun h => h.2
  · exact fun h => ⟨⟨h.1, h.2.1⟩, h.1, h.2.1, h.2.2⟩

theorem scanOrder_pairwise (m : Mask) : (scanOrder m).Pairwise rmLt :=
  (rowMajor_pairwise m.H m.W).filter _

theorem rmLt_ne {p q : ℕ × ℕ} : rmLt p q → p ≠ q := by
  intro h heq
  subst heq
  rcases h with h | ⟨_, h⟩ <;> omega

theorem scanOrder_nodup (m : Mask) : (scanOrder m).Nodup :=
  (scanOrder_pairwise m).imp fun h => rmLt_ne h

theorem scanOrder_length (m : Mask) : (scanOrder m).length = (onSet m).card := by
  have h1 : (scanOrder m).toFinset = onSet m := by
    ext p
    simp [List.mem_toFinset, mem_scanOrder, mem_onSet]
  rw [← h1, List.toFinset_card_of_nodup (scanOrder_nodup m)]

theorem scanOrder_nil_of_zero {e : Mask} (he : ∀ r c, e.pix r c = 0) :
    scanOrder e = [] := by
  unfold scanOrder
  rw [List.filter_eq_nil_iff]
  intro p _
  simp [he]

theorem buildPath_nil_of_zero {e : Mask} (he : ∀ r c, e.pix r c = 0) :
    buildPath e = [] := by
  unfold buildPath
  rw [scanOrder_nil_of_zero he]

theorem selAux_cons (cur p : ℕ × ℕ) (l : List (ℕ × ℕ)) :
    selAux cur (p :: l) =
      match selAux cur l with
      | none => some p
      | some q => if sqDist cur p ≤ sqDist cur q then some p else some q := rfl

theorem selAux_eq_none_iff {cur : ℕ × ℕ} {l : List (ℕ × ℕ)} :
    selAux cur l = none ↔ l = [] := by
  cases l with
  | nil => simp [selAux]
  | cons p t =>
    rw [selAux_cons]
    apply iff_of_false
    · cases h : selAux cur t with
      | none => simp
      | some q => by_cases hd : sqDist cur p ≤ sqDist cur q <;> simp [hd]
    · simp

theorem selAux_mem {cur : ℕ × ℕ} : ∀ {l : List (ℕ × ℕ)} {q : ℕ × ℕ},
    selAux cur l = some q → q ∈ l := by
  intro l
  induction l with
  | nil => intro q h; simp [selAux] at h
  | cons p t ih =>
    intro q h
    rw [selAux_cons] at h
    cases ht : selAux cur t with
    | none =>
      rw [ht] at h
      obtain rfl := Option.some.inj h
      exact List.mem_cons_self _ _
    | some u =>
      rw [ht] at h
      dsimp only at h
      by_cases hd : sqDist cur p ≤ sqDist cur u
      · rw [if_pos hd] at h
        obtain rfl := Option.some.inj h
        exact List.mem_cons_self _ _
      · rw [if_neg hd] at h
        obtain rfl := Option.some.inj h
        exact List.mem_cons_of_mem _ (ih ht)

theorem selAux_min {cur : ℕ × ℕ} : ∀ {l : List (ℕ × ℕ)} {q : ℕ × ℕ},
    selAux cur l = some q → ∀ x ∈ l, sqDist cur q ≤ sqDist cur x := by
  intro l
  induction l with
  | nil => intro q h; simp [selAux] at h
  | cons p t ih =>
    intro q h x hx
    rw [selAux_cons] at h
    cases ht : selAux cur t with
    | none =>
      rw [ht] at h
      obtain rfl := Option.some.inj h
      have he : t = [] := selAux_eq_none_iff.mp ht
      subst he
      rcases List.mem_cons.mp hx with rfl | hx'
      · exact le_refl _
      · simp at hx'
    | some u =>
      rw [ht] at h
      dsimp only at h
      by_cases hd : sqDist cur p ≤ sqDist cur u
      · rw [if_pos hd] at h
        obtain rfl := Option.some.inj h
        rcases List.mem_cons.mp hx with rfl | hx'
        · exact le_refl _
        · exact le_trans hd (ih ht x hx')
      · rw [if_neg hd] at h
        obtain rfl := Option.some.inj h
        rcases List.mem_cons.mp hx with rfl | hx'
        · exact le_of_lt (lt_of_not_le hd)
        · exact ih ht x hx'

theorem selAux_cons_of_lt {cur p r : ℕ × ℕ} {t : List (ℕ × ℕ)}
    (h : sqDist cur r < sqDist cur p) :
    selAux cur (p :: r :: t) = selAux cur (r :: t) := by
  cases hq : selAux cur (r :: t) with
  | none => exact absurd (selAux_eq_none_iff.mp hq) (by simp)
  | some q =>
    have hmin := selAux_min hq r (List.mem_cons_self _ _)
    rw [selAux_cons, hq]
    exact if_neg (by omega)

theorem selAux_cons_of_ge {cur p r : ℕ × ℕ} {t : List (ℕ × ℕ)}
    (h : sqDist cur p ≤ sqDist cur r) :
    selAux cur (p :: r :: t) = selAux cur (p :: t) := by
  rw [selAux_cons cur p (r :: t), selAux_cons cur r t, selAux_cons cur p t]
  cases ht : selAux cur t with
  | none =>
    dsimp only
    rw [if_pos h]
  | some u =>
    dsimp only
    by_cases hru : sqDist cur r ≤ sqDist cur u
    · rw [if_pos hru]
      dsimp only
      rw [if_pos h, if_pos (le_trans h hru)]
    · rw [if_neg hru]

theorem findNearestGo_eq {cur : ℕ × ℕ} :
    ∀ (l : List (ℕ × ℕ)) (p : ℕ × ℕ),
      findNearestGo cur l (some (p, sqDist cur p)) =
        (selAux cur (p :: l)).map fun q => (q, sqDist cur q) := by
  intro l
  induction l with
  | nil => intro p; simp [findNearestGo, selAux]
  | cons r t ih =>
    intro p
    simp only [findNearestGo]
    by_cases hd : sqDist cur r < sqDist cur p
    · rw [if_pos hd, ih r, selAux_cons_of_lt hd]
    · rw [if_neg hd, ih p, selAux_cons_of_ge (le_of_not_lt hd)]

theorem findNearest_eq_selAux (cur : ℕ × ℕ) (l : List (ℕ × ℕ)) :
    findNearest cur l = selAux cur l := by
  cases l with
  | nil => rfl
  | cons p t =>
    unfold findNearest
    have h1 : findNearestGo cur (p :: t) none =
        findNearestGo cur t (some (p, sqDist cur p)) := rfl
    rw [h1, findNearestGo_eq t p, Option.map_map]
    cases selAux cur (p :: t) <;> rfl

theorem find?_congrOn {α : Type} {p q : α → Bool} :
    ∀ {l : List α}, (∀ x ∈ l, p x = q x) → l.find? p = l.find? q := by
  intro l
  induction l with
  | nil => intro _; rfl
  | cons a t ih =>
    intro h
    rw [List.find?_cons, List.find?_cons, h a (List.mem_cons_self _ _)]
    cases q a with
    | true => rfl
    | false => exact ih fun x hx => h x (List.mem_cons_of_mem _ hx)

theorem specSelect_cons (cur p : ℕ × ℕ) (t : List (ℕ × ℕ)) :
    specSelect cur (p :: t) =
      if (t.all fun r => decide (sqDist cur p ≤ sqDist cur r)) = true then some p
      else specSelect cur t := by
  unfold specSelect
  rw [List.find?_cons]
  have hp : ((p :: t).all fun r => decide (sqDist cur p ≤ sqDist cur r)) =
      (t.all fun r => decide (sqDist cur p ≤ sqDist cur r)) := by
    rw [List.all_cons]
    simp
  by_cases hall : (t.all fun r => decide (sqDist cur p ≤ sqDist cur r)) = true
  · rw [if_pos hall]
    rw [hp, hall]
  · rw [if_neg hall]
    have hfalse : ((p :: t).all fun r => decide (sqDist cur p ≤ sqDist cur r)) = false := by
      rw [hp]
      exact Bool.not_eq_true _ |>.mp hall
    rw [hfalse]
    obtain ⟨w, hw, hwlt⟩ : ∃ w ∈ t, sqDist cur w < sqDist cur p := by
      rw [List.all_eq_true] at hall
      push_neg at hall
      obtain ⟨w, hw, hwp⟩ := hall
      exact ⟨w, hw, by simpa using hwp⟩
    apply find?_congrOn
    intro x hx
    rw [List.all_cons]
    cases hxall : (t.all fun r => decide (sqDist cur x ≤ sqDist cur r)) with
    | false => simp
    | true =>
      have hxw : sqDist cur x ≤ sqDist cur w := by
        rw [List.all_eq_true] at hxall
        simpa using hxall w hw
      simp only [Bool.and_true]
      simp
      omega

theorem selAux_eq_specSelect (cur : ℕ × ℕ) :
    ∀ l : List (ℕ × ℕ), selAux cur l = specSelect cur l := by
  intro l
  induction l with
  | nil => rfl
  | cons p t ih =>
    rw [selAux_cons, specSelect_cons]
    cases ht : selAux cur t with
    | none =>
      have he : t = [] := selAux_eq_none_iff.mp ht
      subst he
      simp
    | some u =>
      have hmem := selAux_mem ht
      have hmin := selAux_min ht
      rw [← ih, ht]
      by_cases hd : sqDist cur p ≤ sqDist cur u
      · have hall : (t.all fun r => decide (sqDist cur p ≤ sqDist cur r)) = true := by
          rw [List.all_eq_true]
          intro r hr
          simpa using le_trans hd (hmin r hr)
        rw [if_pos hall]
        dsimp only
        rw [if_pos hd]
      · have hall : (t.all fun r => decide (sqDist cur p ≤ sqDist cur r)) = false := by
          cases hcase : (t.all fun r => decide (sqDist cur p ≤ sqDist cur r)) with
          | false => rfl
          | true =>
            rw [List.all_eq_true] at hcase
            exact absurd (by simpa using hcase u hmem) hd
        rw [hall]
        dsimp only
        rw [if_neg hd]
        simp

theorem findNearest_eq_specSelect (cur : ℕ × ℕ) (l : List (ℕ × ℕ)) :
    findNearest cur l = specSelect cur l := by
  rw [findNearest_eq_selAux, selAux_eq_specSelect]

theorem nnGo_eq_specGo : ∀ (fuel : ℕ) (cur : ℕ × ℕ) (l : List (ℕ × ℕ)),
    nnGo cur l fuel = specGo cur l fuel := by
  intro fuel
  induction fuel with
  | zero => intro cur l; rfl
  | succ n ih =>
    intro cur l
    simp only [nnGo, specGo, findNearest_eq_specSelect]
    cases specSelect cur l with
    | none => rfl
    | some q =>
      dsimp only
      rw [ih]

theorem buildPath_eq_buildPathSpec (m : Mask) : buildPath m = buildPathSpec m := by
  unfold buildPath buildPathSpec
  cases scanOrder m with
  | nil => rfl
  | cons p rest =>
    dsimp only
    rw [nnGo_eq_specGo]

theorem findNearest_isSome {cur : ℕ × ℕ} {l : List (ℕ × ℕ)} (h : l ≠ []) :
    ∃ q, findNearest cur l = some q := by
  rw [findNearest_eq_selAux]
  cases hq : selAux cur l with
  | none => exact absurd (selAux_eq_none_iff.mp hq) h
  | some q => exact ⟨q, rfl⟩

theorem findNearest_mem {cur : ℕ × ℕ} {l : List (ℕ × ℕ)} {q : ℕ × ℕ}
    (h : findNearest cur l = some q) : q ∈ l := by
  rw [findNearest_eq_selAux] at h
  exact selAux_mem h

theorem perm_cons_erase_pt {q : ℕ × ℕ} :
    ∀ {l : List (ℕ × ℕ)}, q ∈ l → l.Perm (q :: l.erase q) := by
  intro l
  induction l with
  | nil => intro h; simp at h
  | cons a t ih =>
    intro h
    by_cases hqa : a = q
    · subst hqa
      rw [List.erase_cons_head]
    · have he : (a :: t).erase q = a :: t.erase q := by
        rw [List.erase_cons, if_neg (by simpa using hqa)]
      rw [he]
      have hq : q ∈ t := by
        rcases List.mem_cons.mp h with h1 | h1
        · exact absurd h1.symm hqa
        · exact h1
      exact ((ih hq).cons a).trans (List.Perm.swap q a _)

theorem nnGo_perm : ∀ (fuel : ℕ) (cur : ℕ × ℕ) (l : List (ℕ × ℕ)),
    l.length = fuel → (nnGo cur l fuel).Perm l := by
  intro fuel
  induction fuel with
  | zero =>
    intro cur l h
    rw [List.length_eq_zero] at h
    subst h
    exact List.Perm.refl _
  | succ n ih =>
    intro cur l h
    cases l with
    | nil => simp at h
    | cons a t =>
      obtain ⟨q, hq⟩ := @findNearest_isSome cur (a :: t) (by simp)
      have hqmem : q ∈ a :: t := findNearest_mem hq
      simp only [nnGo]
      rw [hq]
      have hlen : ((a :: t).erase q).length = n := by
        rw [List.length_erase_of_mem hqmem, h]
        omega
      exact ((ih q _ hlen).cons q).trans (perm_cons_erase_pt hqmem).symm

theorem buildPath_perm (m : Mask) : (buildPath m).Perm (scanOrder m) := by
  unfold buildPath
  cases hs : scanOrder m with
  | nil => exact List.Perm.refl _
  | cons p rest =>
    exact (nnGo_perm rest.length p rest rfl).cons p

theorem buildPath_head (m : Mask) : (buildPath m).head? = (scanOrder m).head? := by
  unfold buildPath
  cases scanOrder m with
  | nil => rfl
  | cons p rest => rfl

theorem scanOrder_congr {m₁ m₂ : Mask} (hH : m₁.H = m₂.H) (hW : m₁.W = m₂.W)
    (hpix : ∀ r c, r < m₁.H → c < m₁.W → (m₁.pix r c = 0 ↔ m₂.pix r c = 0)) :
    scanOrder m₁ = scanOrder m₂ := by
  unfold scanOrder
  rw [← hH, ← hW]
  apply List.filter_congr
  intro p hp
  have hb := mem_rowMajor.mp hp
  have hiff := hpix p.1 p.2 hb.1 hb.2
  simp only [decide_eq_decide]
  exact not_iff_not.mpr hiff

theorem buildPath_congr {m₁ m₂ : Mask} (h : scanOrder m₁ = scanOrder m₂) :
    buildPath m₁ = buildPath m₂ := by
  unfold buildPath
  rw [h]

theorem adj8_symm {p q : ℕ × ℕ} (h : adj8 p q) : adj8 q p := by
  obtain ⟨h1, h2, h3⟩ := h
  refine ⟨h1.symm, ?_, ?_⟩
  · rw [Nat.dist_comm]; exact h2
  · rw [Nat.dist_comm]; exact h3

theorem connStep_symm {m : Mask} {p q : ℕ × ℕ} (h : connStep m p q) :
    connStep m q p :=
  ⟨h.2.1, h.1, adj8_symm h.2.2⟩

theorem rtg_connStep_symm {m : Mask} {p q : ℕ × ℕ}
    (h : Relation.ReflTransGen (connStep m) p q) :
    Relation.ReflTransGen (connStep m) q p := by
  induction h with
  | refl => exact Relation.ReflTransGen.refl
  | tail hab hbc ih => exact Relation.ReflTransGen.head (connStep_symm hbc) ih

theorem conn_on {m : Mask} {p q : ℕ × ℕ} (h : Conn m p q) : On m q := by
  obtain ⟨hp, hr⟩ := h
  induction hr with
  | refl => exact hp
  | tail _ hstep _ => exact hstep.2.1

theorem subset_expand (m : Mask) (s : Finset (ℕ × ℕ)) : s ⊆ expand m s :=
  Finset.subset_union_left

theorem subset_iterate_expand (m : Mask) (s : Finset (ℕ × ℕ)) :
    ∀ n, s ⊆ (expand m)^[n] s := by
  intro n
  induction n with
  | zero => exact fun x hx => hx
  | succ k ih =>
    rw [Function.iterate_succ_apply']
    exact ih.trans (subset_expand m _)

theorem iterate_expand_subset_onSet {m : Mask} {s : Finset (ℕ × ℕ)}
    (hs : s ⊆ onSet m) : ∀ n, (expand m)^[n] s ⊆ onSet m := by
  intro n
  induction n with
  | zero => exact hs
  | succ k ih =>
    rw [Function.iterate_succ_apply']
    exact Finset.union_subset ih (Finset.filter_subset _ _)

theorem iterate_expand_stab {m : Mask} {s : Finset (ℕ × ℕ)} {n : ℕ}
    (h : (expand m)^[n + 1] s = (expand m)^[n] s) :
    ∀ k, (expand m)^[n + k] s = (expand m)^[n] s := by
  intro k
  induction k with
  | zero => rfl
  | succ j ih =>
    have he : n + (j + 1) = (n + j) + 1 := by omega
    rw [he, Function.iterate_succ_apply', ih,
      ← Function.iterate_succ_apply' (expand m) n s, h]

theorem iterate_expand_growth {m : Mask} {s : Finset (ℕ × ℕ)} :
    ∀ n, (∀ j < n, (expand m)^[j + 1] s ≠ (expand m)^[j] s) →
      s.card + n ≤ ((expand m)^[n] s).card := by
  intro n
  induction n with
  | zero => intro _; simp
  | succ k ih =>
    intro h
    have h1 : s.card + k ≤ ((expand m)^[k] s).card :=
      ih fun j hj => h j (by omega)
    have h2 : (expand m)^[k] s ⊂ (expand m)^[k + 1] s := by
      rw [Finset.ssubset_iff_subset_ne]
      constructor
      · rw [Function.iterate_succ_apply']
        exact subset_expand m _
      · exact (h k (Nat.lt_succ_self k)).symm
    have h3 := Finset.card_lt_card h2
    omega

theorem expand_empty (m : Mask) : expand m ∅ = ∅ := by
  unfold expand
  simp

theorem iterate_expand_empty (m : Mask) :
    ∀ n, (expand m)^[n] (∅ : Finset (ℕ × ℕ)) = ∅ := by
  intro n
  induction n with
  | zero => rfl
  | succ k ih => rw [Function.iterate_succ_apply', ih, expand_empty]

theorem card_grid (m : Mask) : (grid m).card = m.H * m.W := by
  unfold grid
  rw [Finset.card_product]
  simp

theorem expand_compOf_fix (m : Mask) (p : ℕ × ℕ) :
    expand m (compOf m p) = compOf m p := by
  unfold compOf
  by_cases hOn : On m p
  case neg =>
    rw [if_neg hOn, iterate_expand_empty, expand_empty]
  case pos =>
    rw [if_pos hOn]
    have hsub : ({p} : Finset (ℕ × ℕ)) ⊆ onSet m := by
      intro x hx
      rw [Finset.mem_singleton] at hx
      subst hx
      exact mem_onSet.mpr hOn
    by_cases hstab : ∃ j < m.H * m.W,
        (expand m)^[j + 1] ({p} : Finset (ℕ × ℕ)) = (expand m)^[j] {p}
    · obtain ⟨j, hj, hfix⟩ := hstab
      have h1 := iterate_expand_stab hfix
      have h2 : (expand m)^[m.H * m.W] ({p} : Finset (ℕ × ℕ)) =
          (expand m)^[j] {p} := by
        have h3 := h1 (m.H * m.W - j)
        rwa [show j + (m.H * m.W - j) = m.H * m.W by omega] at h3
      rw [h2, ← Function.iterate_succ_apply' (expand m) j, hfix]
    · exfalso
      push_neg at hstab
      have hgrow := iterate_expand_growth (m.H * m.W) hstab
      have hcard_le : ((expand m)^[m.H * m.W] ({p} : Finset (ℕ × ℕ))).card ≤
          (onSet m).card :=
        Finset.card_le_card (iterate_expand_subset_onSet hsub _)
      have honset : (onSet m).card ≤ m.H * m.W := by
        have h4 := Finset.card_le_card (Finset.filter_subset (fun q => On m q) (grid m))
        rw [card_grid] at h4
        exact h4
      have hone : ({p} : Finset (ℕ × ℕ)).card = 1 := Finset.card_singleton p
      omega

theorem conn_of_mem_iterate {m : Mask} {p : ℕ × ℕ} :
    ∀ (n : ℕ) (s : Finset (ℕ × ℕ)), (∀ x ∈ s, Conn m p x) →
      ∀ q ∈ (expand m)^[n] s, Conn m p q := by
  intro n
  induction n with
  | zero => exact fun s hs q hq => hs q hq
  | succ k ih =>
    intro s hs q hq
    rw [Function.iterate_succ_apply] at hq
    refine ih (expand m s) ?_ q hq
    intro x hx
    unfold expand at hx
    rw [Finset.mem_union] at hx
    rcases hx with hx | hx
    · exact hs x hx
    · rw [Finset.mem_filter] at hx
      obtain ⟨hxon, r, hr, hadj⟩ := hx
      have hconn_r := hs r hr
      exact ⟨hconn_r.1, hconn_r.2.tail ⟨conn_on hconn_r, mem_onSet.mp hxon, hadj⟩⟩

theorem mem_compOf {m : Mask} {p q : ℕ × ℕ} :
    q ∈ compOf m p ↔ Conn m p q := by
  constructor
  · intro hq
    unfold compOf at hq
    refine conn_of_mem_iterate _ _ ?_ q hq
    intro x hx
    by_cases hOn : On m p
    · rw [if_pos hOn, Finset.mem_singleton] at hx
      subst hx
      exact ⟨hOn, Relation.ReflTransGen.refl⟩
    · rw [if_neg hOn] at hx
      exact absurd hx (Finset.not_mem_empty x)
  · rintro ⟨hOn, hr⟩
    have hbase : p ∈ compOf m p := by
      have hps : p ∈ (if On m p then ({p} : Finset (ℕ × ℕ)) else ∅) := by
        rw [if_pos hOn]
        exact Finset.mem_singleton_self p
      exact subset_iterate_expand m _ _ hps
    have hclosed : ∀ x y, x ∈ compOf m p → connStep m x y → y ∈ compOf m p := by
      intro x y hx hstep
      rw [← expand_compOf_fix m p]
      unfold expand
      rw [Finset.mem_union, Finset.mem_filter]
      exact Or.inr ⟨mem_onSet.mpr hstep.2.1, x, hx, hstep.2.2⟩
    induction hr with
    | refl => exact hbase
    | tail hab hbc ih => exact hclosed _ _ ih hbc

theorem filterSmall_pix (m : Mask) (k : ℕ) (p : ℕ × ℕ) :
    (filterSmallComponents m k).pix p.1 p.2 =
      if On m p ∧ k ≤ compSize m p then 255 else 0 := rfl

theorem On_filterSmall {m : Mask} {k : ℕ} {p : ℕ × ℕ} :
    On (filterSmallComponents m k) p ↔ On m p ∧ k ≤ compSize m p := by
  constructor
  · intro h
    have h3 := h.2.2
    rw [filterSmall_pix] at h3
    by_cases hc : On m p ∧ k ≤ compSize m p
    · exact hc
    · rw [if_neg hc] at h3
      exact absurd rfl h3
  · intro hc
    refine ⟨hc.1.1, hc.1.2.1, ?_⟩
    rw [filterSmall_pix, if_pos hc]
    omega

theorem conn_compOf_eq {m : Mask} {p q : ℕ × ℕ} (h : Conn m p q) :
    compOf m p = compOf m q := by
  ext a
  rw [mem_compOf, mem_compOf]
  constructor
  · intro ha
    exact ⟨conn_on h, (rtg_connStep_symm h.2).trans ha.2⟩
  · intro ha
    exact ⟨h.1, h.2.trans ha.2⟩

theorem conn_compSize_eq {m : Mask} {p q : ℕ × ℕ} (h : Conn m p q) :
    compSize m p = compSize m q := by
  unfold compSize
  rw [conn_compOf_eq h]

theorem conn_filterSmall {m : Mask} {k : ℕ} {p q : ℕ × ℕ}
    (hp : On (filterSmallComponents m k) p) :
    Conn (filterSmallComponents m k) p q ↔ Conn m p q := by
  constructor
  · rintro ⟨h1, h2⟩
    refine ⟨(On_filterSmall.mp h1).1, ?_⟩
    exact h2.mono fun a b hab =>
      ⟨(On_filterSmall.mp hab.1).1, (On_filterSmall.mp hab.2.1).1, hab.2.2⟩
  · rintro ⟨h1, h2⟩
    obtain ⟨hOnp, hk⟩ := On_filterSmall.mp hp
    refine ⟨hp, ?_⟩
    induction h2 with
    | refl => exact Relation.ReflTransGen.refl
    | tail hab hbc ih =>
      have hconnb : Conn m p _ := ⟨hOnp, hab⟩
      have hconnc : Conn m p _ := ⟨hOnp, hab.tail hbc⟩
      have hOnb : On (filterSmallComponents m k) _ :=
        On_filterSmall.mpr ⟨conn_on hconnb, by rw [← conn_compSize_eq hconnb]; exact hk⟩
      have hOnc : On (filterSmallComponents m k) _ :=
        On_filterSmall.mpr ⟨conn_on hconnc, by rw [← conn_compSize_eq hconnc]; exact hk⟩
      exact ih.tail ⟨hOnb, hOnc, hbc.2.2⟩

theorem compOf_filterSmall {m : Mask} {k : ℕ} {p : ℕ × ℕ}
    (hp : On (filterSmallComponents m k) p) :
    compOf (filterSmallComponents m k) p = compOf m p := by
  ext a
  rw [mem_compOf, mem_compOf]
  exact conn_filterSmall hp

theorem filterSmall_idem (m : Mask) (k : ℕ) :
    filterSmallComponents (filterSmallComponents m k) k =
      filterSmallComponents m k := by
  refine Mask.eq_of_fields rfl rfl ?_
  funext r c
  rw [show (filterSmallComponents (filterSmallComponents m k) k).pix r c =
      (filterSmallComponents (filterSmallComponents m k) k).pix (r, c).1 (r, c).2
    from rfl]
  rw [filterSmall_pix]
  by_cases h : On (filterSmallComponents m k) (r, c)
  · obtain ⟨h1, h2⟩ := On_filterSmall.mp h
    rw [if_pos ⟨h, by unfold compSize; rw [compOf_filterSmall h]; exact h2⟩]
    rw [show (filterSmallComponents m k).pix r c =
        (filterSmallComponents m k).pix (r, c).1 (r, c).2 from rfl]
    rw [filterSmall_pix, if_pos ⟨h1, h2⟩]
  · rw [if_neg fun hc => h hc.1]
    rw [show (filterSmallComponents m k).pix r c =
        (filterSmallComponents m k).pix (r, c).1 (r, c).2 from rfl]
    rw [filterSmall_pix, if_neg]
    intro hc
    exact h (On_filterSmall.mpr hc)

theorem filterSmall_of_zero {e : Mask} (he : ∀ r c, e.pix r c = 0) (k : ℕ) :
    filterSmallComponents e k = e := by
  refine Mask.eq_of_fields rfl rfl ?_
  funext r c
  rw [show (filterSmallComponents e k).pix r c =
      (filterSmallComponents e k).pix (r, c).1 (r, c).2 from rfl]
  rw [filterSmall_pix, if_neg, he]
  intro hc
  exact hc.1.2.2 (he r c)

theorem drawSeg_pix (img : Mask) (p q : ℕ × ℕ) (r c : ℕ) :
    (drawSeg img p q).pix r c =
      if r < img.H ∧ c < img.W ∧ onSegment p q (r, c) then 255
      else img.pix r c := rfl

theorem drawSeg_binary {img : Mask}
    (himg : ∀ r c, img.pix r c = 0 ∨ img.pix r c = 255) (p q : ℕ × ℕ) :
    ∀ r c, (drawSeg img p q).pix r c = 0 ∨ (drawSeg img p q).pix r c = 255 := by
  intro r c
  rw [drawSeg_pix]
  split
  · exact Or.inr rfl
  · exact himg r c

theorem foldl_drawSeg_binary :
    ∀ (l : List ((ℕ × ℕ) × (ℕ × ℕ))) (img : Mask),
      (∀ r c, img.pix r c = 0 ∨ img.pix r c = 255) →
      ∀ r c, (l.foldl (fun im pq => drawSeg im pq.1 pq.2) img).pix r c = 0 ∨
        (l.foldl (fun im pq => drawSeg im pq.1 pq.2) img).pix r c = 255 := by
  intro l
  induction l with
  | nil => exact fun img h r c => h r c
  | cons a t ih =>
    intro img h r c
    rw [List.foldl_cons]
    exact ih _ (drawSeg_binary h a.1 a.2) r c

theorem renderPath_binary (e : Mask) (r c : ℕ) :
    (renderPath e).pix r c = 0 ∨ (renderPath e).pix r c = 255 := by
  unfold renderPath
  exact foldl_drawSeg_binary _ _ (fun _ _ => Or.inl rfl) r c

theorem clearRegion_pix (m : Mask) (x1 y1 x2 y2 r c : ℕ) :
    (clearRegion m x1 y1 x2 y2).pix r c =
      if min y1 y2 ≤ r ∧ r < max y1 y2 ∧ min x1 x2 ≤ c ∧ c < max x1 x2 then 0
      else m.pix r c := rfl

theorem clearRegion_degenerate {m : Mask} {x1 y1 x2 y2 : ℕ}
    (h : x1 = x2 ∨ y1 = y2) : clearRegion m x1 y1 x2 y2 = m := by
  refine Mask.eq_of_fields rfl rfl ?_
  funext r c
  rw [clearRegion_pix, if_neg]
  rintro ⟨h1, h2, h3, h4⟩
  rcases h with rfl | rfl
  · simp only [min_self, max_self] at h3 h4
    omega
  · simp only [min_self, max_self] at h1 h2
    omega

/-- C1: for every mask with at least one on pixel, the path returned by
`buildPath` is a permutation of the mask's on-pixel set — its length
equals the number of on pixels, a coordinate appears in it exactly when it
is an on pixel, and no coordinate appears twice. -/
theorem c1_buildPath_is_permutation_of_on_pixels (m : Mask)
    (_h : (onSet m).Nonempty) :
    (buildPath m).length = (onSet m).card ∧
    (∀ p, p ∈ buildPath m ↔ On m p) ∧
    (buildPath m).Nodup := by
  have hperm := buildPath_perm m
  refine ⟨?_, ?_, ?_⟩
  · rw [hperm.length_eq, scanOrder_length]
  · intro p
    rw [hperm.mem_iff, mem_scanOrder]
  · exact hperm.nodup_iff.mpr (scanOrder_nodup m)

/-- Witness for C1 at the concrete 1×2 all-on mask. -/
theorem c1_witness :
    (buildPath wRow2).length = (onSet wRow2).card ∧
    (∀ p, p ∈ buildPath wRow2 ↔ On wRow2 p) ∧
    (buildPath wRow2).Nodup :=
  c1_buildPath_is_permutation_of_on_pixels wRow2 (by decide)

/-- C2: for every non-empty mask, `buildPath` enumerates the on pixels in
row-major scan order (`scanOrder` holds exactly the on pixels, pairwise
increasing in row-major order), seeds the path with the first point of
that enumeration, and equals the spec-side greedy algorithm
`buildPathSpec`, which repeatedly appends the unvisited point of minimal
squared Euclidean distance, breaking ties toward the earliest scan
position. -/
theorem c2_buildPath_greedy_scan_order (m : Mask)
    (_h : (onSet m).Nonempty) :
    (∀ p, p ∈ scanOrder m ↔ On m p) ∧
    (scanOrder m).Pairwise rmLt ∧
    (buildPath m).head? = (scanOrder m).head? ∧
    buildPath m = buildPathSpec m :=
  ⟨fun _ => mem_scanOrder, scanOrder_pairwise m, buildPath_head m,
    buildPath_eq_buildPathSpec m⟩

/-- Witness for C2 at the concrete 1×2 all-on mask. -/
theorem c2_witness :
    (∀ p, p ∈ scanOrder wRow2 ↔ On wRow2 p) ∧
    (scanOrder wRow2).Pairwise rmLt ∧
    (buildPath wRow2).head? = (scanOrder wRow2).head? ∧
    buildPath wRow2 = buildPathSpec wRow2 :=
  c2_buildPath_greedy_scan_order wRow2 (by decide)

/-- C3: with a positive threshold, a pixel is on in the filtered mask iff
it is on in the input and its 8-connected component — the set of pixels
`Conn`-reachable from it — has pixel count at least `minSize` (components
of exactly `minSize` pixels are kept); off background pixels are never
turned on. -/
theorem c3_filter_keeps_iff_component_large (m : Mask) (k : ℕ) (_hk : 0 < k)
    (p : ℕ × ℕ) :
    (On (filterSmallComponents m k) p ↔
      On m p ∧ ∃ C : Finset (ℕ × ℕ), (∀ q, q ∈ C ↔ Conn m p q) ∧ k ≤ C.card) ∧
    (¬ On m p → (filterSmallComponents m k).pix p.1 p.2 = 0) := by
  constructor
  · rw [On_filterSmall]
    constructor
    · rintro ⟨h1, h2⟩
      exact ⟨h1, compOf m p, fun _ => mem_compOf, h2⟩
    · rintro ⟨h1, C, hC, hcard⟩
      refine ⟨h1, ?_⟩
      have hCe : C = compOf m p := by
        ext a
        rw [hC a, mem_compOf]
      unfold compSize
      rw [← hCe]
      exact hcard
  · intro hoff
    rw [filterSmall_pix, if_neg fun hc => hoff hc.1]

/-- Witness for C3 at the 1×2 all-on mask with threshold 2 (the single
component has exactly 2 pixels and is kept). -/
theorem c3_witness :
    (On (filterSmallComponents wRow2 2) (0, 0) ↔
      On wRow2 (0, 0) ∧
        ∃ C : Finset (ℕ × ℕ), (∀ q, q ∈ C ↔ Conn wRow2 (0, 0) q) ∧ 2 ≤ C.card) ∧
    (¬ On wRow2 (0, 0) → (filterSmallComponents wRow2 2).pix 0 0 = 0) :=
  c3_filter_keeps_iff_component_large wRow2 2 (by decide) (0, 0)

/-- C4: `filterSmallComponents` is idempotent — filtering twice with the
same threshold equals filtering once. -/
theorem c4_filter_idempotent (m : Mask) (k : ℕ) :
    filterSmallComponents (filterSmallComponents m k) k =
      filterSmallComponents m k :=
  filterSmall_idem m k

/-- C5: `remove_small_edges` and `create_line_drawing` fail exactly when
the edge mask is absent (with the `ValueError`-style message
"No edges detected"); a present mask with zero on pixels is not an error:
`buildPath` is empty on it and `filterSmallComponents` returns it
unchanged. -/
theorem c5_absent_mask_is_the_only_error (st : ImageProcessor) (k : ℕ)
    (e : Mask) (he : ∀ r c, e.pix r c = 0) :
    ((remove_small_edges st k).isOk = true ↔ st.edges.isSome = true) ∧
    ((create_line_drawing st).isOk = true ↔ st.edges.isSome = true) ∧
    (st.edges = none →
      remove_small_edges st k = Except.error ("No edges detected")) ∧
    (st.edges = none →
      create_line_drawing st = Except.error ("No edges detected")) ∧
    buildPath e = [] ∧
    filterSmallComponents e k = e := by
  refine ⟨?_, ?_, ?_, ?_, buildPath_nil_of_zero he, filterSmall_of_zero he k⟩
  · cases hedges : st.edges with
    | none => simp [remove_small_edges, hedges, Except.isOk, Except.toBool]
    | some e2 => simp [remove_small_edges, hedges, Except.isOk, Except.toBool]
  · cases hedges : st.edges with
    | none => simp [create_line_drawing, hedges, Except.isOk, Except.toBool]
    | some e2 => simp [create_line_drawing, hedges, Except.isOk, Except.toBool]
  · intro hnone
    simp [remove_small_edges, hnone]
  · intro hnone
    simp [create_line_drawing, hnone]

/-- Witness for C5 at a state holding an edge mask and at the empty 1×1
mask. -/
theorem c5_witness :
    ((remove_small_edges stWithEdges 1).isOk = true ↔
      stWithEdges.edges.isSome = true) ∧
    ((create_line_drawing stWithEdges).isOk = true ↔
      stWithEdges.edges.isSome = true) ∧
    (stWithEdges.edges = none →
      remove_small_edges stWithEdges 1 = Except.error ("No edges detected")) ∧
    (stWithEdges.edges = none →
      create_line_drawing stWithEdges = Except.error ("No edges detected")) ∧
    buildPath wEmpty = [] ∧
    filterSmallComponents wEmpty 1 = wEmpty :=
  c5_absent_mask_is_the_only_error stWithEdges 1 wEmpty fun r c => by
    simp [wEmpty, mkMask]

/-- C6 counterexample: the claim "clearRegion has no failure case" is
false of the code — `delete_edges_in_region` raises when no edge mask is
present, so not every invocation completes without error. -/
theorem c6_counterexample :
    ¬ ∀ (st : ImageProcessor) (x1 y1 x2 y2 : ℕ),
        (delete_edges_in_region st x1 y1 x2 y2).isOk = true := by
  intro h
  have h2 := h stNone 0 0 1 1
  simp [delete_edges_in_region, stNone, Except.isOk, Except.toBool] at h2

/-- C6 (amended): the region-clear operations fail exactly when the target
mask is absent (like the other operations); on a present mask they always
complete, and when the rectangle is degenerate (equal corner columns or
equal corner rows) the mask is left unchanged. -/
theorem c6_clearRegion_amended (st : ImageProcessor) (x1 y1 x2 y2 : ℕ)
    (e : Mask) :
    ((delete_edges_in_region st x1 y1 x2 y2).isOk = true ↔
      st.edges.isSome = true) ∧
    ((erase_line_in_region st x1 y1 x2 y2).isOk = true ↔
      st.line_drawing.isSome = true) ∧
    (x1 = x2 ∨ y1 = y2 → clearRegion e x1 y1 x2 y2 = e) := by
  refine ⟨?_, ?_, fun h => clearRegion_degenerate h⟩
  · cases hedges : st.edges with
    | none => simp [delete_edges_in_region, hedges, Except.isOk, Except.toBool]
    | some e2 => simp [delete_edges_in_region, hedges, Except.isOk, Except.toBool]
  · cases hld : st.line_drawing with
    | none => simp [erase_line_in_region, hld, Except.isOk, Except.toBool]
    | some l2 => simp [erase_line_in_region, hld, Except.isOk, Except.toBool]

/-- Witness for the amended C6: a present-mask invocation succeeds and a
degenerate rectangle leaves the concrete mask unchanged. -/
theorem c6_witness : clearRegion wDot55 3 0 3 9 = wDot55 :=
  (c6_clearRegion_amended stWithEdges 3 0 3 9 wDot55).2.2 (Or.inl rfl)

/-- C7: `buildPath` is deterministic — it depends only on the mask's
dimensions and on-pixel support, so masks that agree on which grid pixels
are on (whatever the stored byte values) yield identical paths, element
for element. -/
theorem c7_buildPath_deterministic (m₁ m₂ : Mask) (hH : m₁.H = m₂.H)
    (hW : m₁.W = m₂.W)
    (hpix : ∀ r c, r < m₁.H → c < m₁.W → (m₁.pix r c = 0 ↔ m₂.pix r c = 0)) :
    buildPath m₁ = buildPath m₂ :=
  buildPath_congr (scanOrder_congr hH hW hpix)

/-- Witness for C7: the 1×1 masks storing 7 and 255 have the same support
and yield the same path. -/
theorem c7_witness : buildPath wOne7 = buildPath wOne255 :=
  c7_buildPath_deterministic wOne7 wOne255 rfl rfl fun r c hr hc => by
    simp [wOne7, wOne255, mkMask, hr, hc]

/-- C8: `clearRegion` with corners given in either order keeps the mask
dimensions, zeroes every pixel inside the normalized half-open rectangle
`[min x1 x2, max x1 x2) × [min y1 y2, max y1 y2)` (x = column,
y = row), and leaves every pixel outside it untouched. -/
theorem c8_clearRegion_frame (m : Mask) (x1 y1 x2 y2 r c : ℕ) :
    (clearRegion m x1 y1 x2 y2).H = m.H ∧
    (clearRegion m x1 y1 x2 y2).W = m.W ∧
    (min y1 y2 ≤ r ∧ r < max y1 y2 ∧ min x1 x2 ≤ c ∧ c < max x1 x2 →
      (clearRegion m x1 y1 x2 y2).pix r c = 0) ∧
    (¬ (min y1 y2 ≤ r ∧ r < max y1 y2 ∧ min x1 x2 ≤ c ∧ c < max x1 x2) →
      (clearRegion m x1 y1 x2 y2).pix r c = m.pix r c) := by
  refine ⟨rfl, rfl, ?_, ?_⟩
  · intro h
    rw [clearRegion_pix, if_pos h]
  · intro h
    rw [clearRegion_pix, if_neg h]

/-- Witness for C8, the spec's scenario: corners `(10,10)`–`(0,0)` given
reversed clear the on pixel at `(5,5)`, while a pixel outside the
rectangle keeps its value. -/
theorem c8_witness :
    (clearRegion wDot55 10 10 0 0).pix 5 5 = 0 ∧
    (clearRegion wDot55 10 10 0 0).pix 5 11 = wDot55.pix 5 11 :=
  ⟨(c8_clearRegion_frame wDot55 10 10 0 0 5 5).2.2.1 (by decide),
    (c8_clearRegion_frame wDot55 10 10 0 0 5 11).2.2.2 (by decide)⟩

/-- C9: `get_current_display_image` returns the line drawing when one
exists, otherwise the edge mask when one exists, otherwise the current
image when one exists, and otherwise `none`; being a total function it
never fails. -/
theorem c9_display_image_priority (st : ImageProcessor) :
    (st.line_drawing.isSome = true →
      get_current_display_image st = st.line_drawing) ∧
    (st.line_drawing = none → st.edges.isSome = true →
      get_current_display_image st = st.edges) ∧
    (st.line_drawing = none → st.edges = none →
      get_current_display_image st = st.current_image) := by
  refine ⟨?_, ?_, ?_⟩
  · intro h
    cases hld : st.line_drawing with
    | none => rw [hld] at h; simp at h
    | some ld => simp [get_current_display_image, hld]
  · intro h1 h2
    cases hed : st.edges with
    | none => rw [hed] at h2; simp at h2
    | some e2 => simp [get_current_display_image, h1, hed]
  · intro h1 h2
    simp only [get_current_display_image, h1, h2]
    cases st.current_image <;> rfl

/-- Witness for C9 at three concrete states, one per branch of the
priority chain. -/
theorem c9_witness :
    get_current_display_image stWithLine = stWithLine.line_drawing ∧
    get_current_display_image stWithEdges = stWithEdges.edges ∧
    get_current_display_image stWithImage = stWithImage.current_image ∧
    get_current_display_image stNone = none :=
  ⟨(c9_display_image_priority stWithLine).1 rfl,
    (c9_display_image_priority stWithEdges).2.1 rfl rfl,
    (c9_display_image_priority stWithImage).2.2 rfl rfl,
    (c9_display_image_priority stNone).2.2 rfl rfl⟩

/-- C10: every pixel of the mask produced by the small-component filter
and every pixel of the image produced by the path renderer is either 0 or
255 — the stored masks stay binary. -/
theorem c10_filter_and_drawing_binary (e : Mask) (k r c : ℕ) :
    ((filterSmallComponents e k).pix r c = 0 ∨
      (filterSmallComponents e k).pix r c = 255) ∧
    ((renderPath e).pix r c = 0 ∨ (renderPath e).pix r c = 255) := by
  constructor
  · rw [show (filterSmallComponents e k).pix r c =
        (filterSmallComponents e k).pix (r, c).1 (r, c).2 from rfl]
    rw [filterSmall_pix]
    split
    · exact Or.inr rfl
    · exact Or.inl rfl
  · exact renderPath_binary e r c
